import Mathlib

/-!
Verification development for the @mdfriday/shortcode compiler core
(PageLexer, PageRenderer with step rendering, ShortcodeRenderer).

Strings are modelled as lists of characters (`Str`).  The JavaScript
whitespace class `\s` is modelled by its ASCII members, which is what every
input in this code base exercises.  Loops of the source that advance a
cursor by a computed amount are embedded with an explicit fuel parameter
initialised so that it can never run out on the source's own call paths
(each iteration consumes at least one character / index).
-/

/-- Strings as lists of characters. -/
abbrev Str := List Char

/-- ASCII members of the JavaScript whitespace class used by `trim` and `\s`. -/
def isWs (c : Char) : Bool :=
  c = ' ' || c = '\t' || c = '\n' || c = '\r' || c = '\x0b' || c = '\x0c'

/-- JavaScript `String.prototype.trim` (both ends). -/
def trimWs (s : Str) : Str :=
  ((s.dropWhile isWs).reverse.dropWhile isWs).reverse

/-- JavaScript `String.prototype.trimEnd`. -/
def trimEndWs (s : Str) : Str :=
  (s.reverse.dropWhile isWs).reverse

/-- `content.split('\n')` — always returns at least one piece. -/
def splitNl : Str → List Str
  | [] => [[]]
  | '\n' :: rest => [] :: splitNl rest
  | c :: rest =>
    match splitNl rest with
    | l :: ls => (c :: l) :: ls
    | [] => [[c]]

/-- `lines.join('\n')`. -/
def joinNl : List Str → Str
  | [] => []
  | [l] => l
  | l :: ls => l ++ '\n' :: joinNl ls

/-- First index at which `pat` occurs as a contiguous substring (JS `indexOf`). -/
def findSubIn : Str → Str → Option Nat
  | s, pat =>
    if pat.isPrefixOf s then some 0
    else
      match s with
      | [] => none
      | _ :: rest => (findSubIn rest pat).map (· + 1)

/-- One global, left-to-right, non-overlapping replacement pass
(JS `String.replace(new RegExp(literal, 'g'), repl)`; the replacement text is
taken verbatim).  Fuel is the subject length; every step consumes at least one
character when the pattern is non-empty. -/
def replaceAllGo (pat repl : Str) : Nat → Str → Str
  | 0, s => s
  | _, [] => []
  | fuel + 1, s =>
    if pat.isPrefixOf s then repl ++ replaceAllGo pat repl fuel (s.drop pat.length)
    else
      match s with
      | [] => []
      | c :: rest => c :: replaceAllGo pat repl fuel rest

/-- Global replacement of the literal `pat` by `repl` in `s`. -/
def replaceAll (pat repl s : Str) : Str :=
  if pat = [] then s else replaceAllGo pat repl (s.length + 1) s

/-- The placeholder id stem `_mdf_sc_`. -/
def phStem : Str := "_mdf_sc_".data

/-- Decimal digit test for the `\d` class of the placeholder pattern. -/
def isDigitCh (c : Char) : Bool := '0' ≤ c && c ≤ '9'

/-- All matches of `/_mdf_sc_\d+/g` in order (maximal digit runs,
non-overlapping, duplicates kept). -/
def phMatchesGo : Nat → Str → List Str
  | 0, _ => []
  | _, [] => []
  | fuel + 1, s =>
    if phStem.isPrefixOf s then
      let digits := (s.drop phStem.length).takeWhile isDigitCh
      if digits = [] then
        match s with
        | [] => []
        | _ :: rest => phMatchesGo fuel rest
      else
        (phStem ++ digits) :: phMatchesGo fuel (s.drop (phStem.length + digits.length))
    else
      match s with
      | [] => []
      | _ :: rest => phMatchesGo fuel rest

/-- `content.match(/_mdf_sc_\d+/g)`, with `null` rendered as `[]`. -/
def phMatches (s : Str) : List Str := phMatchesGo (s.length + 1) s

/-- Worker for `dedupKeepFirst` with the set of already-seen elements. -/
def dedupGo : List Str → List Str → List Str
  | [], _ => []
  | x :: xs, seen =>
    if seen.contains x then dedupGo xs seen else x :: dedupGo xs (x :: seen)

/-- Keep the first occurrence of each element (JS `new Set(list)` iteration order). -/
def dedupKeepFirst (l : List Str) : List Str := dedupGo l []

/-- Association-list lookup (JS `Map.get`), insertion order preserved. -/
def alGet {α β : Type} [DecidableEq α] (m : List (α × β)) (k : α) : Option β :=
  (m.find? (fun p => p.1 = k)).map (·.2)

/-- JS `Map.has`. -/
def alHas {α β : Type} [DecidableEq α] (m : List (α × β)) (k : α) : Bool :=
  (alGet m k).isSome

/-- JS `Map.set`: overwrite in place if the key exists, else append. -/
def alSet {α β : Type} [DecidableEq α] (m : List (α × β)) (k : α) (v : β) : List (α × β) :=
  if alHas m k then m.map (fun p => if p.1 = k then (k, v) else p)
  else m ++ [(k, v)]

namespace PageLexer

/-- The `type` discriminator of `PageItem`. -/
inductive ItemKind
  | frontmatter
  | shortcode
  | summaryDivider
  | content
deriving DecidableEq, Repr

/-- `PageItem` / `ShortcodeItem` flattened into one record (the TS code
downcasts `PageItem` to `ShortcodeItem` when `type === 'shortcode'`). -/
structure Item where
  kind : ItemKind
  pos : Nat
  val : Str
  name : Str := []
  params : List Str := []
  isClosing : Bool := false
  isInline : Bool := false
deriving DecidableEq, Repr

/-- `PageLexerResult`. -/
structure LexResult where
  items : List Item
  frontmatterFormat : Option Str
  hasFrontmatter : Bool
  hasSummaryDivider : Bool
deriving DecidableEq, Repr

/-- The shortcode name character class `[a-zA-Z0-9_.-]`. -/
def isNameChar (c : Char) : Bool :=
  ('a' ≤ c && c ≤ 'z') || ('A' ≤ c && c ≤ 'Z') || ('0' ≤ c && c ≤ '9') ||
    c = '_' || c = '.' || c = '-'

/-- The opening delimiter sequence of a shortcode tag. -/
def openDelim : Str := "\x7b\x7b<".data

/-- Result of the anchored head pattern `/{{<\s*(\/)?\s*([a-zA-Z0-9_.-]+)/`. -/
structure StartMatch where
  isClosing : Bool
  name : Str
  consumed : Nat
deriving DecidableEq, Repr

/-- After the opening delimiter: the remainder with the first `\s*` run
consumed. -/
def msR2 (s : Str) : Str := (s.drop 3).drop ((s.drop 3).takeWhile isWs).length

/-- The optional closing-tag slash of the head pattern. -/
def msCl (s : Str) : Bool := (msR2 s).head? = some '/'

/-- The remainder after the optional slash. -/
def msR3 (s : Str) : Str := if msCl s then (msR2 s).drop 1 else msR2 s

/-- The shortcode name run `[a-zA-Z0-9_.-]+` after the second `\s*` run. -/
def msNm (s : Str) : Str :=
  ((msR3 s).drop ((msR3 s).takeWhile isWs).length).takeWhile isNameChar

/-- Anchored attempt of the shortcode head pattern at the start of `s`. -/
def matchStartAt (s : Str) : Option StartMatch :=
  if openDelim.isPrefixOf s then
    if msNm s = [] then none
    else
      some ⟨msCl s, msNm s,
        3 + ((s.drop 3).takeWhile isWs).length + (if msCl s then 1 else 0)
          + ((msR3 s).takeWhile isWs).length + (msNm s).length⟩
  else none

/-- Leftmost match of the head pattern (`RegExp.exec` on a `g` pattern with
`lastIndex = 0`): the first position whose anchored attempt succeeds. -/
def findStartGo : Str → Nat → Option (Nat × StartMatch)
  | [], _ => none
  | s@(_ :: rest), i =>
    match matchStartAt s with
    | some m => some (i, m)
    | none => findStartGo rest (i + 1)

/-- Output of the hand-rolled parameter scanner of `parseShortcode`. -/
structure ScanOut where
  params : List Str
  current : Str
  isInline : Bool
  found : Bool
  consumed : Nat
deriving DecidableEq, Repr

/-- The character-by-character parameter scanner of `PageLexer.parseShortcode`
(quotes as containment regions, backslash-escaped quotes, `/>' and `>}`
terminators followed by a greedy run of closing braces).  Arguments: input
remainder, `inQuote`, `quoteChar`, the previously consumed character, the
accumulated `params`, `currentParam`, and the number of characters consumed. -/
def scanParams : Str → Bool → Char → Char → List Str → Str → Nat → ScanOut
  | [], _, _, _, ps, cur, k => ⟨ps, cur, false, false, k⟩
  | c :: rest, inQuote, q, _prev, ps, cur, k =>
    if inQuote = false then
      if c = '\x22' || c = '\x27' then
        scanParams rest true c c ps (cur ++ [c]) (k + 1)
      else if c = '/' && rest.head? = some '>' then
        ⟨ps, cur, true, true, k + 2 + ((rest.drop 1).takeWhile (fun d => d = '\x7d')).length⟩
      else if c = '>' && rest.head? = some '\x7d' then
        ⟨ps, cur, false, true, k + 2 + ((rest.drop 1).takeWhile (fun d => d = '\x7d')).length⟩
      else if c = ' ' || c = '\t' then
        if trimWs cur = [] then scanParams rest false q c ps cur (k + 1)
        else scanParams rest false q c (ps ++ [trimWs cur]) [] (k + 1)
      else
        scanParams rest false q c ps (cur ++ [c]) (k + 1)
    else
      if c = q && _prev ≠ '\x5c' then
        scanParams rest false q c (ps ++ [trimWs (cur ++ [c])]) [] (k + 1)
      else
        scanParams rest true q c ps (cur ++ [c]) (k + 1)

/-- Parsed single shortcode tag (`parseShortcode`'s non-null result). -/
structure ShortcodeParse where
  original : Str
  name : Str
  params : List Str
  isClosing : Bool
  isInline : Bool
deriving DecidableEq, Repr

/-- The scanner output for the tag whose head match ends at `pos0` (the
initial quote character and previous character are unused placeholders, as
the scanner starts outside any quote). -/
def psOut (input : Str) (pos0 : Nat) : ScanOut :=
  scanParams (input.drop pos0) false 'x' 'x' [] [] 0

/-- The final parameter list: the last `currentParam` is pushed (trimmed)
only when it trims to something non-empty and the tag is not inline. -/
def psParams (o : ScanOut) : List Str :=
  if trimWs o.current ≠ [] && o.isInline = false then o.params ++ [trimWs o.current]
  else o.params

/-- `PageLexer.parseShortcode`: head-pattern search, then the parameter
scanner; `none` when no head match or no terminator is found. -/
def parseShortcode (input : Str) : Option ShortcodeParse :=
  match findStartGo input 0 with
  | none => none
  | some (i, m) =>
    if (psOut input (i + m.consumed)).found then
      some ⟨input.take (i + m.consumed + (psOut input (i + m.consumed)).consumed), m.name,
        psParams (psOut input (i + m.consumed)), m.isClosing,
        (psOut input (i + m.consumed)).isInline⟩
    else none

/-- A `content` item. -/
def contentItem (p : Nat) (v : Str) : Item :=
  ⟨ItemKind.content, p, v, [], [], false, false⟩

/-- A `shortcode` item built from a parsed tag. -/
def shortcodeItem (p : Nat) (r : ShortcodeParse) : Item :=
  ⟨ItemKind.shortcode, p, r.original, r.name, r.params, r.isClosing, r.isInline⟩

/-- A `summary_divider` item. -/
def dividerItem (p : Nat) (v : Str) : Item :=
  ⟨ItemKind.summaryDivider, p, v, [], [], false, false⟩

/-- `PageLexer.parseContentWithShortcodes`: scan for `{{<`, parse a tag there,
and on failure emit the three delimiter characters as literal content and
resume immediately after them.  Fuel bounds the loop; every iteration advances
the cursor by at least one character, so `content.length + 1` never runs out. -/
def parseContentWithShortcodes : Nat → Str → Nat → Nat → List Item
  | 0, _, _, _ => []
  | fuel + 1, content, startPos, cur =>
    if cur < content.length then
      match findSubIn (content.drop cur) openDelim with
      | none => [contentItem (startPos + cur) (content.drop cur)]
      | some d =>
        let p := cur + d
        let head := if cur < p then [contentItem (startPos + cur) ((content.drop cur).take d)] else []
        match parseShortcode (content.drop p) with
        | some r =>
          head ++ [shortcodeItem (startPos + p) r]
            ++ parseContentWithShortcodes fuel content startPos (p + r.original.length)
        | none =>
          head ++ [contentItem (startPos + p) openDelim]
            ++ parseContentWithShortcodes fuel content startPos (p + 3)
    else []

/-- Anchored attempt of `/<!--\s*more\s*-->\s*$/` (multiline `$`): returns
the matched length.  The trailing `\s*` is greedy and backtracks to the
longest end position that sits at a line end or at the end of input. -/
def matchDivAt (s : Str) : Option Nat :=
  if ("<!--".data).isPrefixOf s then
    let r1 := s.drop 4
    let w1 := (r1.takeWhile isWs).length
    if ("more".data).isPrefixOf (r1.drop w1) then
      let r2 := (r1.drop w1).drop 4
      let w2 := (r2.takeWhile isWs).length
      if ("-->".data).isPrefixOf (r2.drop w2) then
        let r3 := (r2.drop w2).drop 3
        let w3 := (r3.takeWhile isWs).length
        match ((List.range (w3 + 1)).reverse.find? (fun j =>
            j = r3.length || (r3.drop j).head? = some '\n')) with
        | some j => some (4 + w1 + 4 + w2 + 3 + j)
        | none => none
      else none
    else none
  else none

/-- First (leftmost) match of the summary-divider pattern: anchored attempts
at the start of the input and after every newline.  Returns the absolute
match position and the matched length. -/
def findDivGo : Str → Bool → Nat → Option (Nat × Nat)
  | [], _, _ => none
  | s@(c :: rest), atStart, i =>
    if atStart then
      match matchDivAt s with
      | some len => some (i, len)
      | none => findDivGo rest (c = '\n') (i + 1)
    else findDivGo rest (c = '\n') (i + 1)

/-- `PageLexer.processSummaryDividerAndContent`: split around the first
summary-divider match (if any) and tokenize both halves. -/
def processSummaryDividerAndContent (content : Str) (startPos : Nat) : List Item :=
  match findDivGo content true 0 with
  | none => parseContentWithShortcodes (content.length + 1) content startPos 0
  | some (dp, dl) =>
    let beforeDivider := content.take dp
    let matched := (content.drop dp).take dl
    let afterDivider := content.drop (dp + dl)
    parseContentWithShortcodes (beforeDivider.length + 1) beforeDivider startPos 0
      ++ [dividerItem (startPos + dp) matched]
      ++ parseContentWithShortcodes (afterDivider.length + 1) afterDivider (startPos + dp + dl) 0

/-- Output record of `PageLexer.extractFrontmatter`. -/
structure FmOut where
  hasFm : Bool
  format : Option Str
  fmContent : Str
  remaining : Str
deriving DecidableEq, Repr

/-- Test of a frontmatter closing fence: `/^---\s*$/` (resp. `+++`, `}}`)
applied to the trimmed line. -/
def fenceClose (fence : Str) (line : Str) : Bool :=
  let t := trimWs line
  fence.isPrefixOf t && (t.drop fence.length).all isWs

/-- The trimmed first line of the document. -/
def fmFirst (c : Str) : Str := trimWs ((splitNl c).headD [])

/-- The frontmatter opener recognised on the trimmed first line
(`/^(---|\+\+\+|{{\s*$)/`), paired with its closing fence. -/
def fmFmt (c : Str) : Option (Str × Str) :=
  if ("---".data).isPrefixOf (fmFirst c) then some ("---".data, "---".data)
  else if ("+++".data).isPrefixOf (fmFirst c) then some ("+++".data, "+++".data)
  else if ("\x7b\x7b".data).isPrefixOf (fmFirst c) && ((fmFirst c).drop 2).all isWs then
    some ("\x7b\x7b".data, "\x7d\x7d".data)
  else none

/-- `PageLexer.extractFrontmatter`: the first line (trimmed) must match the
opener pattern; the closer is the first subsequent line whose trimmed text
matches the corresponding closing fence. -/
def extractFrontmatter (c : Str) : FmOut :=
  match fmFmt c with
  | none => ⟨false, none, [], c⟩
  | some (f, cl) =>
    match (List.range (splitNl c).length).find?
        (fun i => 0 < i && fenceClose cl ((splitNl c).getD i [])) with
    | none => ⟨false, none, [], c⟩
    | some e =>
      ⟨true, some f, joinNl ((splitNl c).take (e + 1)), joinNl ((splitNl c).drop (e + 1))⟩

/-- `PageLexer.parse`: frontmatter first, then summary divider and shortcode
scanning on the remaining text. -/
def parse (c : Str) : LexResult :=
  let fm := extractFrontmatter c
  if fm.hasFm then
    let items := ⟨ItemKind.frontmatter, 0, fm.fmContent, [], [], false, false⟩
      :: processSummaryDividerAndContent fm.remaining (fm.fmContent.length + 1)
    ⟨items, fm.format, true, items.any (fun it => it.kind = ItemKind.summaryDivider)⟩
  else
    let items := processSummaryDividerAndContent c 0
    ⟨items, fm.format, false, items.any (fun it => it.kind = ItemKind.summaryDivider)⟩

end PageLexer

/-- `PageRenderOptions` merged over the documented defaults of part of the
renderer (`preserveFrontmatter: false, showWarnings: true,
preserveUnknownShortcodes: true, markedContent: false`, `stepRender`
defaulting to off). -/
structure Options where
  preserveFrontmatter : Bool := false
  showWarnings : Bool := true
  preserveUnknownShortcodes : Bool := true
  stepRender : Bool := false
  markedContent : Bool := false
deriving DecidableEq, Repr

namespace ShortcodeRenderer

/-- A registered function shortcode: `(params, content?) => string`. -/
abbrev RenderFn := List Str → Option Str → Str

/-- The shortcode registry (`ShortcodeRenderer.shortcodes`). -/
abbrev Registry := List (Str × RenderFn)

/-- JS truthiness of an optional string (`undefined` and `''` are falsy). -/
def truthy : Option Str → Bool
  | none => false
  | some s => !s.isEmpty

/-- `ShortcodeRenderer.renderShortcodeItem`: a registered shortcode is
invoked with its params and content; an unknown one is reproduced verbatim
(with a synthesized closing tag around truthy content) when
`preserveUnknownShortcodes` is on, else replaced by its content (or `''`). -/
def renderShortcodeItem (reg : Registry) (item : PageLexer.Item)
    (content : Option Str) (opts : Options) : Str :=
  match alGet reg item.name with
  | none =>
    if opts.preserveUnknownShortcodes then
      if item.isClosing then item.val
      else if truthy content then
        item.val ++ content.getD [] ++ ("\x7b\x7b< /".data ++ item.name ++ " >\x7d\x7d".data)
      else item.val
    else (content.getD [])
  | some f => f item.params content

end ShortcodeRenderer

namespace PageRenderer

open PageLexer ShortcodeRenderer

instance : Inhabited Item := ⟨⟨ItemKind.content, 0, [], [], [], false, false⟩⟩

/-- A matched open/close shortcode pair (`{ start, end, item }`). -/
structure Pair where
  startIdx : Nat
  endIdx : Nat
  item : Item
deriving DecidableEq, Repr

/-- First scan of `processItems`: push non-inline opening tags; on a closing
tag pop once and record a pair only when the popped name matches (a
mismatched popped tag is discarded and not re-pushed). -/
def matchGo : List Item → Nat → List (Nat × Item) → List Pair → List Pair
  | [], _, _, pairs => pairs
  | it :: rest, i, stack, pairs =>
    if it.kind = ItemKind.shortcode then
      if it.isClosing then
        match stack with
        | [] => matchGo rest (i + 1) [] pairs
        | (j, op) :: stack2 =>
          if op.name = it.name then matchGo rest (i + 1) stack2 (pairs ++ [⟨j, i, op⟩])
          else matchGo rest (i + 1) stack2 pairs
      else if it.isInline = false then matchGo rest (i + 1) ((i, it) :: stack) pairs
      else matchGo rest (i + 1) stack pairs
    else matchGo rest (i + 1) stack pairs

/-- The pair list produced by the first scan of `processItems`. -/
def matchPairs (items : List Item) : List Pair := matchGo items 0 [] []

/-- `getDepth`: walk the pair list in order, counting (and moving to) each
pair that strictly contains the current one. -/
def getDepth (pairs : List Pair) (pair : Pair) : Nat :=
  (pairs.foldl (fun (acc : Nat × Pair) p =>
    if p.startIdx < acc.2.startIdx ∧ acc.2.endIdx < p.endIdx then (acc.1 + 1, p) else acc)
    (0, pair)).1

/-- Stable insertion of `a` into an already sorted list. -/
def orderedIns {α : Type} (le : α → α → Bool) (a : α) : List α → List α
  | [] => [a]
  | b :: l => if le a b then a :: b :: l else b :: orderedIns le a l

/-- Stable insertion sort, modelling the (stable) JS `Array.prototype.sort`. -/
def insSort {α : Type} (le : α → α → Bool) : List α → List α
  | [] => []
  | a :: l => orderedIns le a (insSort le l)

/-- The pair comparator `(depthB - depthA) || (a.start - b.start)` as a
`Bool`-valued weak order for the stable sort.  Depths are computed against
the pair list in its construction order. -/
def pairLe (pairs : List Pair) (a b : Pair) : Bool :=
  let da := getDepth pairs a
  let db := getDepth pairs b
  if da = db then a.startIdx ≤ b.startIdx else db < da

/-- The mutable state shared by the second and third scans of
`processItems`: the `processedContent` map keyed by `(start, end)` ranges,
the `processedRanges` set, the step-render cache and the placeholder
counter. -/
structure PassState where
  processed : List ((Nat × Nat) × Str)
  ranges : List (Nat × Nat)
  cache : List (Str × Str)
  counter : Nat
deriving DecidableEq, Repr

/-- A placeholder id: the stem followed by the counter value. -/
def phName (n : Nat) : Str := phStem ++ (Nat.repr n).data

/-- Direct-child content collection for one pair (lines 249–292 of the
renderer): inline tags and pairless openers are rendered (or replaced by a
fresh placeholder in step mode); the opener of an already-resolved inner
pair contributes its cached string and the walk jumps past the inner closer
— but only when that cached string is truthy; closing tags are skipped.
Fuel bounds the walk, which advances by at least one index per step for
pairs produced by `matchPairs`. -/
def collectContent (reg : Registry) (marked : Str → Str) (opts : Options)
    (items : List Item) (pairs : List Pair) (pend : Nat) :
    Nat → Nat → Str → PassState → Str × PassState
  | 0, _, acc, st => (acc, st)
  | fuel + 1, i, acc, st =>
    if i < pend then
      let it := items.getD i default
      if it.kind = ItemKind.shortcode then
        if it.isInline || (it.isClosing = false && pairs.all (fun p => p.startIdx ≠ i)) then
          if opts.stepRender then
            let ph := phName st.counter
            let rendered := renderShortcodeItem reg it none opts
            collectContent reg marked opts items pairs pend fuel (i + 1) (acc ++ ph)
              { st with cache := alSet st.cache ph rendered, counter := st.counter + 1 }
          else
            let rendered := renderShortcodeItem reg it none opts
            collectContent reg marked opts items pairs pend fuel (i + 1) (acc ++ rendered) st
        else if it.isClosing = false then
          match pairs.find? (fun p => p.startIdx = i) with
          | some ip =>
            match alGet st.processed (ip.startIdx, ip.endIdx) with
            | some rendered =>
              if rendered.isEmpty then
                collectContent reg marked opts items pairs pend fuel (i + 1) acc st
              else
                collectContent reg marked opts items pairs pend fuel (ip.endIdx + 1)
                  (acc ++ rendered) st
            | none => collectContent reg marked opts items pairs pend fuel (i + 1) acc st
          | none => collectContent reg marked opts items pairs pend fuel (i + 1) acc st
        else collectContent reg marked opts items pairs pend fuel (i + 1) acc st
      else
        let v := if it.kind = ItemKind.content && opts.markedContent then marked it.val else it.val
        collectContent reg marked opts items pairs pend fuel (i + 1) (acc ++ v) st
    else (acc, st)

/-- Second scan of `processItems`, one pair: collect the direct-child
content, invoke the pair's shortcode, and record the result (in step mode: a
fresh placeholder, with the rendered string stored in the cache). -/
def resolvePair (reg : Registry) (marked : Str → Str) (opts : Options)
    (items : List Item) (pairs : List Pair) (st : PassState) (pair : Pair) : PassState :=
  let range := (pair.startIdx, pair.endIdx)
  if st.ranges.contains range then st
  else
    let st1 := { st with ranges := st.ranges ++ [range] }
    let (content, st2) := collectContent reg marked opts items pairs pair.endIdx
      (pair.endIdx + 1) (pair.startIdx + 1) [] st1
    if opts.stepRender then
      let ph := phName st2.counter
      let rendered := renderShortcodeItem reg pair.item (some content) opts
      { st2 with
        cache := alSet st2.cache ph rendered
        counter := st2.counter + 1
        processed := alSet st2.processed range ph }
    else
      let rendered := renderShortcodeItem reg pair.item (some content) opts
      { st2 with processed := alSet st2.processed range rendered }

/-- Third scan of `processItems` (lines 309–361): non-shortcode items pass
through; inline tags and pairless openers are rendered (or replaced by a
placeholder); the opener of a resolved pair is replaced by its cached
(truthy) string and the walk jumps past the closer; closing tags are
skipped. -/
def finalWalk (reg : Registry) (marked : Str → Str) (opts : Options)
    (items : List Item) (pairs : List Pair) :
    Nat → Nat → List Item → PassState → List Item × PassState
  | 0, _, acc, st => (acc, st)
  | fuel + 1, i, acc, st =>
    if i < items.length then
      let it := items.getD i default
      if it.kind ≠ ItemKind.shortcode then
        finalWalk reg marked opts items pairs fuel (i + 1) (acc ++ [it]) st
      else if it.isInline ||
          (it.isClosing = false &&
            pairs.all (fun p => ¬(p.item.name = it.name ∧ p.startIdx = i))) then
        if opts.stepRender then
          let ph := phName st.counter
          let rendered := renderShortcodeItem reg it none opts
          finalWalk reg marked opts items pairs fuel (i + 1)
            (acc ++ [contentItem it.pos ph])
            { st with cache := alSet st.cache ph rendered, counter := st.counter + 1 }
        else
          finalWalk reg marked opts items pairs fuel (i + 1)
            (acc ++ [contentItem it.pos (renderShortcodeItem reg it none opts)]) st
      else if it.isClosing = false then
        match pairs.find? (fun p => p.startIdx = i) with
        | some p =>
          match alGet st.processed (p.startIdx, p.endIdx) with
          | some rendered =>
            if rendered.isEmpty then
              finalWalk reg marked opts items pairs fuel (i + 1) acc st
            else
              finalWalk reg marked opts items pairs fuel (p.endIdx + 1)
                (acc ++ [contentItem it.pos rendered]) st
          | none => finalWalk reg marked opts items pairs fuel (i + 1) acc st
        | none => finalWalk reg marked opts items pairs fuel (i + 1) acc st
      else finalWalk reg marked opts items pairs fuel (i + 1) acc st
    else (acc, st)

/-- Result of `processItems`: the processed item list, the step-render cache
and the final placeholder counter. -/
structure ProcOut where
  result : List Item
  cache : List (Str × Str)
  counter : Nat
deriving DecidableEq, Repr

/-- `PageRenderer.processItems`: match pairs, sort them deepest-first (start
ascending as tie-break), resolve each pair, then walk the original item
list.  In step mode the instance cache is cleared first; otherwise it is
left untouched. -/
def processItems (reg : Registry) (marked : Str → Str) (opts : Options)
    (cache0 : List (Str × Str)) (items : List Item) : ProcOut :=
  let pairs := matchPairs items
  let sorted := insSort (pairLe pairs) pairs
  let st0 : PassState := ⟨[], [], if opts.stepRender then [] else cache0, 0⟩
  let st1 := sorted.foldl (resolvePair reg marked opts items pairs) st0
  let (res, st2) := finalWalk reg marked opts items pairs (items.length + 1) 0 [] st1
  ⟨res, st2.cache, st2.counter⟩

/-- `PageRenderResult` (the `frontmatter` field keeps the raw block). -/
structure RenderResult where
  content : Str
  summary : Str
  hasSummaryDivider : Bool
  frontmatter : Option Str
deriving DecidableEq, Repr

/-- The frontmatter accessor of `renderLexerResult` (`parseFrontmatter`
returns the raw block when both the flag and the format are present). -/
def parseFrontmatterRaw (lex : LexResult) : Option Str :=
  if lex.hasFrontmatter ∧ lex.frontmatterFormat.isSome then
    (lex.items.find? (fun it => it.kind = ItemKind.frontmatter)).map (·.val)
  else none

/-- The content/summary accumulation loop of `renderLexerResult` (lines
125–157): frontmatter is gated by `preserveFrontmatter`, the summary divider
is replaced by a normalised `<!-- more -->` with newline adjustment against
the neighbouring items, everything else is appended. -/
def composeLoop (opts : Options) : List Item → Bool → Str → Str → Str × Str
  | [], _, content, summary => (content, summary)
  | it :: rest, summaryFound, content, summary =>
    match it.kind with
    | ItemKind.frontmatter =>
      if opts.preserveFrontmatter then
        composeLoop opts rest summaryFound (content ++ it.val)
          (if summaryFound then summary else summary ++ it.val)
      else composeLoop opts rest summaryFound content summary
    | ItemKind.summaryDivider =>
      let c1 := if content ≠ [] ∧ content.getLast? ≠ some '\n' then content ++ ['\n'] else content
      let c2 := c1 ++ "<!-- more -->".data
      let c3 :=
        match rest.head? with
        | some nxt => if nxt.val.head? ≠ some '\n' then c2 ++ ['\n'] else c2
        | none => c2
      composeLoop opts rest true c3 summary
    | _ =>
      composeLoop opts rest summaryFound (content ++ it.val)
        (if summaryFound then summary else summary ++ it.val)

/-- `PageRenderer.renderLexerResult` with the instance cache made explicit:
returns the render result together with the step-render cache left behind. -/
def renderLexerResult (reg : Registry) (marked : Str → Str) (lex : LexResult)
    (opts : Options) (cache0 : List (Str × Str)) :
    RenderResult × List (Str × Str) :=
  let po := processItems reg marked opts cache0 lex.items
  let pis := po.result
  if pis.length = 1 ∧ (pis.headD default).kind = ItemKind.summaryDivider then
    (⟨[], [], true, none⟩, po.cache)
  else if pis.length = 0 then
    (⟨[], [], false, none⟩, po.cache)
  else if pis.length = 1 ∧ (pis.headD default).kind = ItemKind.content then
    let v := (pis.headD default).val
    (⟨v, trimWs v, false, none⟩, po.cache)
  else
    let cs := composeLoop opts pis false [] []
    (⟨cs.1, trimEndWs cs.2, lex.hasSummaryDivider, parseFrontmatterRaw lex⟩, po.cache)

/-- `PageRenderer.render`: lex, then render the lexer result. -/
def render (reg : Registry) (marked : Str → Str) (text : Str) (opts : Options)
    (cache0 : List (Str × Str)) : RenderResult × List (Str × Str) :=
  renderLexerResult reg marked (PageLexer.parse text) opts cache0

end PageRenderer

namespace PageRenderer

/-- `calculateDepth` of `processNestedInCache`: depth of a placeholder in the
nesting graph of the cache, with a visited set guarding against cycles and a
memo map (`placeholderDepth`) threaded through.  The fuel bounds the
recursion depth; `none` means the fuel ran out (which the defensive visited
set provably prevents for any sufficient fuel, see the termination theorem). -/
def calcDepth (phMap : List (Str × List Str)) :
    Nat → List (Str × Nat) → Str → List Str → Option (Nat × List (Str × Nat))
  | 0, _, _, _ => none
  | fuel + 1, memo, ph, visited =>
    if visited.contains ph then some (0, memo)
    else
      let visited2 := ph :: visited
      match alGet memo ph with
      | some d => some (d, memo)
      | none =>
        match alGet phMap ph with
        | none => some (0, alSet memo ph 0)
        | some nested =>
          if nested.isEmpty then some (0, alSet memo ph 0)
          else
            match nested.foldl (fun acc n =>
                match acc with
                | none => none
                | some (maxd, memo2) =>
                  match calcDepth phMap fuel memo2 n visited2 with
                  | none => none
                  | some (d, memo3) => some (max maxd d, memo3)) (some (0, memo)) with
            | none => none
            | some (maxd, memo4) => some (maxd + 1, alSet memo4 ph (maxd + 1))

/-- The placeholder nesting map of `processNestedInCache`: each cache entry
whose value contains placeholder ids maps to the deduplicated list of those
ids. -/
def buildPhMap (cache : List (Str × Str)) : List (Str × List Str) :=
  cache.foldl (fun m p =>
    let nested := phMatches p.2
    if nested.isEmpty then m else alSet m p.1 (dedupKeepFirst nested)) []

/-- The depth pass of `processNestedInCache`: compute (and memoise) a depth
for every cache key, each top-level call starting from an empty visited
set. -/
def computeDepths (phMap : List (Str × List Str)) (fuel : Nat)
    (keys : List Str) : Option (List (Str × Nat)) :=
  keys.foldl (fun acc ph =>
    match acc with
    | none => none
    | some memo =>
      if alHas memo ph then some memo
      else
        match calcDepth phMap fuel memo ph [] with
        | none => none
        | some (_, memo2) => some memo2) (some [])

/-- `PageRenderer.processNestedInCache`: flatten the cache by processing its
keys in ascending depth order, substituting the ids nested in each value by
the already-flattened values of lower-depth entries (an id absent from both
maps substitutes the JS string `"undefined"`). -/
def processNestedInCache (cache : List (Str × Str)) : Option (List (Str × Str)) :=
  let phMap := buildPhMap cache
  match computeDepths phMap (phMap.length + 1) (cache.map (·.1)) with
  | none => none
  | some depths =>
    let sorted := insSort
      (fun a b => ((alGet depths a).getD 0) ≤ ((alGet depths b).getD 0))
      (cache.map (·.1))
    some (sorted.foldl (fun processed ph =>
      let content := (alGet cache ph).getD []
      let nested := phMatches content
      if nested.isEmpty then alSet processed ph content
      else
        let newContent := (dedupKeepFirst nested).foldl (fun cont n =>
          let repl :=
            match alGet processed n with
            | some r => r
            | none => ((alGet cache n).getD ("undefined".data))
          replaceAll n repl cont) content
        alSet processed ph newContent) [])

/-- `PageRenderer.processNestedPlaceholders`: substitute every
placeholder-pattern match of `content` that is a key of the cache by its
cached value; matches absent from the cache are left untouched. -/
def processNestedPlaceholders (cache : List (Str × Str)) (content : Str) : Str :=
  let placeholders := phMatches content
  if placeholders.isEmpty then content
  else
    placeholders.foldl (fun cont ph =>
      if alHas cache ph then replaceAll ph ((alGet cache ph).getD []) cont else cont)
      content

/-- `PageRenderer.finalRender` with the instance cache made explicit: an
empty cache returns the content unchanged; otherwise the cache is flattened
and the placeholders of `content` substituted. -/
def finalRender (cache : List (Str × Str)) (content : Str) : Option Str :=
  if cache.isEmpty then some content
  else
    match processNestedInCache cache with
    | none => none
    | some flat => some (processNestedPlaceholders flat content)

end PageRenderer

namespace PageLexer

/-- Concatenation of the raw values of an item list in emission order. -/
def concatVals (items : List Item) : Str := (items.map (fun it => it.val)).flatten

end PageLexer

namespace PageRenderer

open PageLexer ShortcodeRenderer

/-- The `processedContent` map left behind by the pair-resolution scan of
`processItems`: for each resolved pair range it records the string produced
by that pair's shortcode invocation (or its placeholder in step mode).
Exposed as the observable of which inner-content string each pair's
invocation received. -/
def resolvedPairContents (reg : Registry) (marked : Str → Str) (opts : Options)
    (cache0 : List (Str × Str)) (items : List Item) : List ((Nat × Nat) × Str) :=
  let pairs := matchPairs items
  let sorted := insSort (pairLe pairs) pairs
  let st0 : PassState := ⟨[], [], if opts.stepRender then [] else cache0, 0⟩
  (sorted.foldl (resolvePair reg marked opts items pairs) st0).processed

/-- The invariant of a recorded pair: proper orientation, the opening token
is the non-inline, non-closing shortcode stored in the pair, and the closing
token is a closing shortcode of the same name. -/
def pairOK (items : List Item) (p : Pair) : Prop :=
  p.startIdx < p.endIdx ∧
  items[p.startIdx]? = some p.item ∧
  p.item.kind = ItemKind.shortcode ∧
  p.item.isClosing = false ∧ p.item.isInline = false ∧
  ∃ cl, items[p.endIdx]? = some cl ∧ cl.kind = ItemKind.shortcode ∧
    cl.isClosing = true ∧ cl.name = p.item.name

end PageRenderer

/-- Example registry: the shortcode `i` renders to the empty string and `o`
parenthesises its inner content. -/
def emptyInnerReg : ShortcodeRenderer.Registry :=
  [("i".data, fun _ _ => []),
   ("o".data, fun _ c => "(".data ++ c.getD [] ++ ")".data)]

/-- The nested document `{{<o>}}{{<i>}}X{{</i>}}{{</o>}}`. -/
def nestedDoc : Str :=
  "\x7b\x7b<o>\x7d\x7d\x7b\x7b<i>\x7d\x7dX\x7b\x7b</i>\x7d\x7d\x7b\x7b</o>\x7d\x7d".data

/-- The crossing document `{{< a >}}{{< b >}}{{< /a >}}{{< /b >}}`. -/
def crossingDoc : Str :=
  "\x7b\x7b< a >\x7d\x7d\x7b\x7b< b >\x7d\x7d\x7b\x7b< /a >\x7d\x7d\x7b\x7b< /b >\x7d\x7d".data

/-- The document `{{< x />}}...{{< /x >}}` with an inline tag before a
closing tag of the same name. -/
def inlineCloserDoc : Str :=
  "\x7b\x7b< x />\x7d\x7d...\x7b\x7b< /x >\x7d\x7d".data

/-- The document `abc {{< /x >}} def` with a stray closing tag. -/
def strayCloserDoc : Str := "abc \x7b\x7b< /x >\x7d\x7d def".data

/-- C10: in `PageLexer.parseShortcode`, reaching the self-closing terminator
`/>` silently discards the unquoted parameter text accumulated since the
last whitespace: `{{< x a/>}}` parses as an inline shortcode named `x` with
an empty parameter list, while `{{< x a />}}` parses with parameters
`["a"]`. -/
theorem C10_selfclosing_discards_pending_param :
    PageLexer.parseShortcode "\x7b\x7b< x a/>\x7d\x7d".data =
      some ⟨"\x7b\x7b< x a/>\x7d\x7d".data, "x".data, [], false, true⟩ ∧
    PageLexer.parseShortcode "\x7b\x7b< x a />\x7d\x7d".data =
      some ⟨"\x7b\x7b< x a />\x7d\x7d".data, "x".data, ["a".data], false, true⟩ :=
  ⟨by decide, by decide⟩

/-- C4: evaluation of `finalRender` at the failing input of the claim: with
the cache `{_mdf_sc_1 ↦ "A", _mdf_sc_12 ↦ "B"}` and the text
`"_mdf_sc_1 _mdf_sc_12"`, the global substring replacement of the id
`_mdf_sc_1` corrupts the occurrence of `_mdf_sc_12`, producing `"A A2"`
instead of the `"A B"` the claim requires. -/
theorem C4_finalRender_prefix_corruption :
    PageRenderer.finalRender
        [("_mdf_sc_1".data, "A".data), ("_mdf_sc_12".data, "B".data)]
        "_mdf_sc_1 _mdf_sc_12".data = some ("A A2".data) ∧
    ("A A2".data : Str) ≠ "A B".data :=
  ⟨by decide, by decide⟩

set_option maxHeartbeats 8000000 in
/-- C1: evaluation of the divergence between one-step and two-step
rendering: on `{{<o>}}{{<i>}}X{{</i>}}{{</o>}}` with `i` rendering to the
empty string and `o` parenthesising its content, `render` with
`stepRender = false` yields `"(X)"` (the falsy cached result makes the
walk re-collect the raw inner content), while `finalRender` applied to
the step-mode content yields `"()"`. -/
theorem C1_step_equivalence_divergence :
    (PageRenderer.render emptyInnerReg id nestedDoc {} []).1.content = "(X)".data ∧
    PageRenderer.finalRender
        (PageRenderer.render emptyInnerReg id nestedDoc { stepRender := true } []).2
        (PageRenderer.render emptyInnerReg id nestedDoc { stepRender := true } []).1.content
      = some ("()".data) ∧
    ("(X)".data : Str) ≠ "()".data :=
  ⟨by decide, by decide, by decide⟩

set_option maxHeartbeats 4000000 in
/-- C2 counterexample: on the nested document with the inner pair rendering
to the empty string, the outer invocation receives the raw inner content
`"X"` (its recorded result is `"(X)"`), not the fully rendered inner string
`""` (which would give `"()"`). -/
theorem C2_empty_inner_not_received :
    alGet (PageRenderer.resolvedPairContents emptyInnerReg id {} []
        (PageLexer.parse nestedDoc).items) (0, 4) = some ("(X)".data) ∧
    some ("(X)".data) ≠ some ("()".data : Str) :=
  ⟨by decide, by decide⟩

set_option maxHeartbeats 4000000 in
/-- C6 counterexample: with `preserveUnknownShortcodes := true`, the stray
closing tag of `abc {{< /x >}} def` is dropped from the rendered output —
its raw text does not appear. -/
theorem C6_closer_dropped_despite_preserve :
    (PageRenderer.render [] id strayCloserDoc { preserveUnknownShortcodes := true } []).1.content
      = "abc  def".data ∧
    ¬ ("\x7b\x7b< /x >\x7d\x7d".data <:+:
        (PageRenderer.render [] id strayCloserDoc
          { preserveUnknownShortcodes := true } []).1.content) :=
  ⟨by decide, by decide⟩

set_option maxHeartbeats 2000000 in
/-- The crossing example `{{< a >}}{{< b >}}{{< /a >}}{{< /b >}}` yields no pair. -/
theorem crossing_matchPairs_empty :
    PageRenderer.matchPairs (PageLexer.parse crossingDoc).items = [] := by decide

theorem inlineCloser_matchPairs_empty :
    PageRenderer.matchPairs (PageLexer.parse inlineCloserDoc).items = [] := by decide

theorem take_min_length {α : Type} (l : List α) (n : Nat) :
    l.take (min n l.length) = l.take n := by
  rcases Nat.le_total n l.length with h | h
  · rw [Nat.min_eq_left h]
  · rw [Nat.min_eq_right h, List.take_of_length_le h, List.take_of_length_le (Nat.le_refl _)]

theorem pre_append_drop {α : Type} [BEq α] [LawfulBEq α] {l1 l2 : List α}
    (h : l1.isPrefixOf l2 = true) : l1 ++ l2.drop l1.length = l2 := by
  obtain ⟨t, rfl⟩ := List.isPrefixOf_iff_prefix.mp h
  rw [List.drop_left]

theorem drop_cons_split {α : Type} {l : List α} {i : Nat} {a : α} {t : List α}
    (h : l.drop i = a :: t) : l[i]? = some a ∧ l.drop (i + 1) = t := by
  constructor
  · have h0 : (l.drop i)[0]? = some a := by rw [h]; simp
    rw [List.getElem?_drop] at h0
    simpa using h0
  · have h1 : (l.drop i).drop 1 = t := by rw [h]; rfl
    rwa [List.drop_drop] at h1

theorem matchGo_pairOK (items : List PageLexer.Item) :
    ∀ (rest : List PageLexer.Item) (i : Nat) (stack : List (Nat × PageLexer.Item))
      (pairs : List PageRenderer.Pair),
      rest = items.drop i →
      (∀ e ∈ stack, e.1 < i ∧ items[e.1]? = some e.2 ∧
        e.2.kind = PageLexer.ItemKind.shortcode ∧
        e.2.isClosing = false ∧ e.2.isInline = false) →
      (∀ p ∈ pairs, PageRenderer.pairOK items p) →
      ∀ p ∈ PageRenderer.matchGo rest i stack pairs, PageRenderer.pairOK items p := by
  intro rest
  induction rest with
  | nil =>
    intro i stack pairs _ _ hpairs p hmem
    simp only [PageRenderer.matchGo] at hmem
    exact hpairs p hmem
  | cons it rest2 ih =>
    intro i stack pairs hdrop hstack hpairs p hmem
    obtain ⟨hit, hdrop2⟩ := drop_cons_split hdrop.symm
    have hstack2 : ∀ e ∈ stack, e.1 < i + 1 ∧ items[e.1]? = some e.2 ∧
        e.2.kind = PageLexer.ItemKind.shortcode ∧
        e.2.isClosing = false ∧ e.2.isInline = false := by
      intro e he
      obtain ⟨h1, h2⟩ := hstack e he
      exact ⟨Nat.lt_succ_of_lt h1, h2⟩
    by_cases hk : it.kind = PageLexer.ItemKind.shortcode
    · by_cases hc : it.isClosing = true
      · cases stack with
        | nil =>
          simp only [PageRenderer.matchGo, hk, hc, if_true, if_pos rfl] at hmem
          exact ih (i + 1) [] pairs hdrop2.symm (by intro e he; cases he) hpairs p hmem
        | cons top stack2 =>
          obtain ⟨j, op⟩ := top
          have htop := hstack (j, op) (List.mem_cons_self _ _)
          have hstack3 : ∀ e ∈ stack2, e.1 < i + 1 ∧ items[e.1]? = some e.2 ∧
              e.2.kind = PageLexer.ItemKind.shortcode ∧
              e.2.isClosing = false ∧ e.2.isInline = false := by
            intro e he
            exact hstack2 e (List.mem_cons_of_mem _ he)
          by_cases hn : op.name = it.name
          · simp only [PageRenderer.matchGo, hk, hc, hn, if_true, if_pos rfl] at hmem
            refine ih (i + 1) stack2 (pairs ++ [⟨j, i, op⟩]) hdrop2.symm hstack3 ?_ p hmem
            intro q hq
            rcases List.mem_append.mp hq with hq | hq
            · exact hpairs q hq
            · have hq' : q = ⟨j, i, op⟩ := by simpa using hq
              subst hq'
              exact ⟨htop.1, htop.2.1, htop.2.2.1, htop.2.2.2.1, htop.2.2.2.2,
                it, hit, hk, hc, hn.symm⟩
          · simp only [PageRenderer.matchGo, hk, hc, hn, if_true, if_false] at hmem
            exact ih (i + 1) stack2 pairs hdrop2.symm hstack3 hpairs p hmem
      · have hc' : it.isClosing = false := by
          cases h : it.isClosing
          · rfl
          · exact absurd h hc
        by_cases hi : it.isInline = false
        · simp only [PageRenderer.matchGo, hk, hc', hi, if_true] at hmem
          refine ih (i + 1) ((i, it) :: stack) pairs hdrop2.symm ?_ hpairs p hmem
          intro e he
          rcases List.mem_cons.mp he with he | he
          · subst he
            exact ⟨Nat.lt_succ_self i, hit, hk, hc', hi⟩
          · exact hstack2 e he
        · have hi' : it.isInline = true := by
            cases h : it.isInline
            · exact absurd h hi
            · rfl
          simp only [PageRenderer.matchGo, hk, hc', hi', if_true] at hmem
          exact ih (i + 1) stack pairs hdrop2.symm hstack2 hpairs p hmem
    · simp only [PageRenderer.matchGo, hk, if_false] at hmem
      exact ih (i + 1) stack pairs hdrop2.symm hstack2 hpairs p hmem

/-- C5: every pair recorded by the tag matcher has `start < end`, stores the
opening token, whose name equals the closing token's name; the opening token
is a non-inline, non-closing shortcode (so no pair has an inline opener);
and for `{{< x />}}...{{< /x >}}` the inline `x` is never paired with the
later closer: no pair is recorded at all. -/
theorem C5_matcher_pair_invariants :
    (∀ (items : List PageLexer.Item) (p : PageRenderer.Pair),
        p ∈ PageRenderer.matchPairs items → PageRenderer.pairOK items p) ∧
    PageRenderer.matchPairs (PageLexer.parse inlineCloserDoc).items = [] := by
  constructor
  · intro items p hp
    exact matchGo_pairOK items items 0 [] [] (by simp) (by intro e he; cases he)
      (by intro q hq; cases hq) p hp
  · exact inlineCloser_matchPairs_empty

set_option maxHeartbeats 4000000 in
theorem C5_matcher_pair_invariants_witness :
    PageRenderer.pairOK (PageLexer.parse nestedDoc).items
      ⟨1, 3, ⟨PageLexer.ItemKind.shortcode, 7, "\x7b\x7b<i>\x7d\x7d".data,
        "i".data, [], false, false⟩⟩ :=
  C5_matcher_pair_invariants.1 (PageLexer.parse nestedDoc).items _ (by decide)

/-- C7: when the tag matcher meets a closing tag and the popped stack top
has a different name, the popped opening tag is discarded (no pair is
recorded for it, and it is not re-pushed); consequently the crossing input
`{{< a >}}{{< b >}}{{< /a >}}{{< /b >}}` records no pair at all. -/
theorem C7_mismatched_pop_discarded :
    (∀ (rest : List PageLexer.Item) (it op : PageLexer.Item) (i j : Nat)
        (stack : List (Nat × PageLexer.Item)) (pairs : List PageRenderer.Pair),
        it.kind = PageLexer.ItemKind.shortcode → it.isClosing = true →
        op.name ≠ it.name →
        PageRenderer.matchGo (it :: rest) i ((j, op) :: stack) pairs
          = PageRenderer.matchGo rest (i + 1) stack pairs) ∧
    PageRenderer.matchPairs (PageLexer.parse crossingDoc).items = [] := by
  constructor
  · intro rest it op i j stack pairs hk hc hn
    simp [PageRenderer.matchGo, hk, hc, hn]
  · exact crossing_matchPairs_empty

theorem C7_mismatched_pop_discarded_witness :
    PageRenderer.matchGo
        [⟨PageLexer.ItemKind.shortcode, 9, "\x7b\x7b< /a >\x7d\x7d".data,
          "a".data, [], true, false⟩] 2
        [(0, ⟨PageLexer.ItemKind.shortcode, 0, "\x7b\x7b< b >\x7d\x7d".data,
          "b".data, [], false, false⟩)] []
      = PageRenderer.matchGo [] 3 [] [] :=
  C7_mismatched_pop_discarded.1 [] _ _ 2 0 [] [] (by decide) (by decide) (by decide)

theorem finalWalk_result_not_shortcode (reg : ShortcodeRenderer.Registry)
    (marked : Str → Str) (opts : Options) (items : List PageLexer.Item)
    (pairs : List PageRenderer.Pair) :
    ∀ (fuel i : Nat) (acc : List PageLexer.Item) (st : PageRenderer.PassState),
      (∀ a ∈ acc, a.kind ≠ PageLexer.ItemKind.shortcode) →
      ∀ b ∈ (PageRenderer.finalWalk reg marked opts items pairs fuel i acc st).1,
        b.kind ≠ PageLexer.ItemKind.shortcode := by
  intro fuel
  induction fuel with
  | zero =>
    intro i acc st hacc b hb
    simp only [PageRenderer.finalWalk] at hb
    exact hacc b hb
  | succ fuel ih =>
    intro i acc st hacc b hb
    simp only [PageRenderer.finalWalk] at hb
    repeat' split at hb
    all_goals try exact hacc b hb
    all_goals try exact ih _ _ _ hacc b hb
    all_goals
      refine ih _ _ _ ?_ b hb
      intro a ha
      rcases List.mem_append.mp ha with ha | ha
      · exact hacc a ha
      · rw [List.mem_singleton] at ha
        subst ha
        first
        | assumption
        | simp [PageLexer.contentItem]

/-- C6 (amended): the step-capable renderer's `processItems` drops unmatched
closing shortcode tags from the rendered output unconditionally — the
`preserveUnknownShortcodes` option has no effect on closers.  First part:
no shortcode-typed item ever survives into the output.  Second part: for a
stray closer between two content items, the output is exactly the two
content items, for every option record. -/
theorem C6_unmatched_closers_always_dropped :
    (∀ (reg : ShortcodeRenderer.Registry) (marked : Str → Str) (opts : Options)
        (cache0 : List (Str × Str)) (items : List PageLexer.Item) (b : PageLexer.Item),
        b ∈ (PageRenderer.processItems reg marked opts cache0 items).result →
        b.kind ≠ PageLexer.ItemKind.shortcode) ∧
    (∀ (reg : ShortcodeRenderer.Registry) (marked : Str → Str) (opts : Options)
        (cache0 : List (Str × Str)) (a b nm v : Str) (pa pb pc : Nat),
        (PageRenderer.processItems reg marked opts cache0
            [PageLexer.contentItem pa a,
             ⟨PageLexer.ItemKind.shortcode, pc, v, nm, [], true, false⟩,
             PageLexer.contentItem pb b]).result
          = [PageLexer.contentItem pa a, PageLexer.contentItem pb b]) := by
  constructor
  · intro reg marked opts cache0 items b hb
    simp only [PageRenderer.processItems] at hb
    exact finalWalk_result_not_shortcode reg marked opts items _ _ _ _ _
      (by intro a ha; cases ha) b hb
  · intro reg marked opts cache0 a b nm v pa pb pc
    simp [PageRenderer.processItems, PageRenderer.matchPairs, PageRenderer.matchGo,
      PageRenderer.insSort, PageRenderer.finalWalk, PageLexer.contentItem, List.getD]

theorem C6_unmatched_closers_always_dropped_witness :
    (PageLexer.contentItem 0 "z".data).kind ≠ PageLexer.ItemKind.shortcode :=
  C6_unmatched_closers_always_dropped.1 [] id {} [] [PageLexer.contentItem 0 "z".data]
    (PageLexer.contentItem 0 "z".data) (by decide)

/-- C2 (amended): for a non-inline pair nested directly inside another
non-inline pair (the claim's own schema, arbitrary names, params, positions
and inner text), rendered with `stepRender = false`: provided the inner
pair's rendered string is non-empty, the outer pair's shortcode invocation
receives exactly that fully rendered string — never the raw tag text of the
inner shortcode.  (When the inner render result is the empty string, the
walk instead re-collects the inner pair's raw inner content, see the
counterexample.) -/
theorem C2_outer_receives_rendered_inner
    (reg : ShortcodeRenderer.Registry) (marked : Str → Str) (opts : Options)
    (cache0 : List (Str × Str)) (no ni X vo vi vci vco : Str)
    (po pi2 pci pco : List Str) (q0 q1 q2 q3 q4 : Nat)
    (hstep : opts.stepRender = false)
    (hne : ShortcodeRenderer.renderShortcodeItem reg
        ⟨PageLexer.ItemKind.shortcode, q1, vi, ni, pi2, false, false⟩
        (some (if opts.markedContent then marked X else X)) opts ≠ []) :
    alGet (PageRenderer.resolvedPairContents reg marked opts cache0
        [⟨PageLexer.ItemKind.shortcode, q0, vo, no, po, false, false⟩,
         ⟨PageLexer.ItemKind.shortcode, q1, vi, ni, pi2, false, false⟩,
         PageLexer.contentItem q2 X,
         ⟨PageLexer.ItemKind.shortcode, q3, vci, ni, pci, true, false⟩,
         ⟨PageLexer.ItemKind.shortcode, q4, vco, no, pco, true, false⟩]) (0, 4)
      = some (ShortcodeRenderer.renderShortcodeItem reg
          ⟨PageLexer.ItemKind.shortcode, q0, vo, no, po, false, false⟩
          (some (ShortcodeRenderer.renderShortcodeItem reg
            ⟨PageLexer.ItemKind.shortcode, q1, vi, ni, pi2, false, false⟩
            (some (if opts.markedContent then marked X else X)) opts)) opts) := by
  have hie : (ShortcodeRenderer.renderShortcodeItem reg
      ⟨PageLexer.ItemKind.shortcode, q1, vi, ni, pi2, false, false⟩
      (some (if opts.markedContent then marked X else X)) opts).isEmpty = false := by
    cases h : ShortcodeRenderer.renderShortcodeItem reg
        ⟨PageLexer.ItemKind.shortcode, q1, vi, ni, pi2, false, false⟩
        (some (if opts.markedContent then marked X else X)) opts with
    | nil => exact absurd h hne
    | cons c cs => rfl
  simp [PageRenderer.resolvedPairContents, PageRenderer.matchPairs,
    PageRenderer.matchGo, PageRenderer.insSort, PageRenderer.orderedIns,
    PageRenderer.pairLe, PageRenderer.getDepth, PageRenderer.resolvePair,
    PageRenderer.collectContent, PageLexer.contentItem, List.getD,
    hstep, hie, alGet, alSet, alHas]

set_option maxHeartbeats 1000000 in
theorem C2_outer_receives_rendered_inner_witness :
    alGet (PageRenderer.resolvedPairContents
        [("i".data, fun _ c => "<i>".data ++ c.getD [] ++ "</i>".data),
         ("o".data, fun _ c => (c.getD []))] id {} []
        [⟨PageLexer.ItemKind.shortcode, 0, "\x7b\x7b<o>\x7d\x7d".data, "o".data, [], false, false⟩,
         ⟨PageLexer.ItemKind.shortcode, 7, "\x7b\x7b<i>\x7d\x7d".data, "i".data, [], false, false⟩,
         PageLexer.contentItem 14 "X".data,
         ⟨PageLexer.ItemKind.shortcode, 15, "\x7b\x7b</i>\x7d\x7d".data, "i".data, [], true, false⟩,
         ⟨PageLexer.ItemKind.shortcode, 23, "\x7b\x7b</o>\x7d\x7d".data, "o".data, [], true, false⟩])
      (0, 4) = some ("<i>X</i>".data) := by
  have h := C2_outer_receives_rendered_inner
      [("i".data, fun _ c => "<i>".data ++ c.getD [] ++ "</i>".data),
       ("o".data, fun _ c => (c.getD []))] id {} []
      "o".data "i".data "X".data
      "\x7b\x7b<o>\x7d\x7d".data "\x7b\x7b<i>\x7d\x7d".data
      "\x7b\x7b</i>\x7d\x7d".data "\x7b\x7b</o>\x7d\x7d".data
      [] [] [] [] 0 7 14 15 23 rfl (by decide)
  exact h.trans (by decide)

/-- C9: whenever the scan finds an opening delimiter (at `cur + d`) for
which `parseShortcode` recognises no tag — in particular when no terminator
exists before the end of input — the tokenizer emits a `Content` item
holding exactly the three delimiter characters and resumes scanning
immediately after them; and tokenization is a total function that returns
an item list for every input (it never raises). -/
theorem C9_malformed_delimiter_literal :
    (∀ (fuel : Nat) (content : Str) (startPos cur d : Nat),
      cur < content.length →
      findSubIn (content.drop cur) PageLexer.openDelim = some d →
      PageLexer.parseShortcode (content.drop (cur + d)) = none →
      PageLexer.parseContentWithShortcodes (fuel + 1) content startPos cur =
        (if cur < cur + d then
          [PageLexer.contentItem (startPos + cur) ((content.drop cur).take d)] else [])
          ++ [PageLexer.contentItem (startPos + (cur + d)) PageLexer.openDelim]
          ++ PageLexer.parseContentWithShortcodes fuel content startPos (cur + d + 3)) ∧
    (∀ (fuel : Nat) (content : Str) (startPos cur : Nat),
      ∃ out, PageLexer.parseContentWithShortcodes fuel content startPos cur = out) := by
  constructor
  · intro fuel content startPos cur d hlt hfind hparse
    simp only [PageLexer.parseContentWithShortcodes, hlt, if_true, hfind, hparse]
  · intro fuel content startPos cur
    exact ⟨_, rfl⟩

theorem C9_malformed_delimiter_literal_witness :
    PageLexer.parseContentWithShortcodes 4 "ab\x7b\x7b< x".data 0 0 =
      (if 0 < 0 + 2 then
        [PageLexer.contentItem (0 + 0) ((("ab\x7b\x7b< x".data).drop 0).take 2)] else [])
        ++ [PageLexer.contentItem (0 + (0 + 2)) PageLexer.openDelim]
        ++ PageLexer.parseContentWithShortcodes 3 "ab\x7b\x7b< x".data 0 (0 + 2 + 3) :=
  C9_malformed_delimiter_literal.1 3 "ab\x7b\x7b< x".data 0 0 2
    (by decide) (by decide) (by decide)

theorem alGet_mem_keys {α β : Type} [DecidableEq α] {m : List (α × β)} {k : α} {v : β}
    (h : alGet m k = some v) : k ∈ m.map (·.1) := by
  unfold alGet at h
  cases hf : m.find? (fun p => p.1 = k) with
  | none => rw [hf] at h; cases h
  | some p =>
    have hp := List.find?_some hf
    have hmem := List.mem_of_find?_eq_some hf
    have hk : p.1 = k := by simpa using hp
    subst hk
    exact List.mem_map_of_mem _ hmem

theorem filter_len_mono {α : Type} {p q : α → Bool} (h : ∀ a, p a = true → q a = true) :
    ∀ l : List α, (l.filter p).length ≤ (l.filter q).length := by
  intro l
  induction l with
  | nil => simp
  | cons a t ih =>
    by_cases hp : p a = true
    · rw [List.filter_cons_of_pos hp, List.filter_cons_of_pos (h a hp)]
      simpa using ih
    · rw [List.filter_cons_of_neg (by simpa using hp)]
      by_cases hq : q a = true
      · rw [List.filter_cons_of_pos hq]
        exact Nat.le_succ_of_le ih
      · rw [List.filter_cons_of_neg (by simpa using hq)]
        exact ih

theorem visited_pred_mono {ph : Str} {visited : List Str} :
    ∀ k : Str, (!(ph :: visited).contains k) = true → (!visited.contains k) = true := by
  intro k hk
  simp only [List.contains_cons, Bool.not_or, Bool.and_eq_true] at hk
  exact hk.2

theorem filter_visited_lt {keys : List Str} {ph : Str} {visited : List Str}
    (hmem : ph ∈ keys) (hnv : visited.contains ph = false) :
    (keys.filter (fun k => !(ph :: visited).contains k)).length <
      (keys.filter (fun k => !visited.contains k)).length := by
  induction keys with
  | nil => cases hmem
  | cons a t ih =>
    simp only [List.filter_cons]
    rcases List.mem_cons.mp hmem with heq | hmem2
    · subst heq
      have h2 : (!(ph :: visited).contains ph) = false := by
        simp [List.contains_cons]
      have h3 : (!visited.contains ph) = true := by rw [hnv]; rfl
      rw [h2, h3]
      simp only [Bool.false_eq_true, if_false, if_true]
      exact Nat.lt_succ_of_le (filter_len_mono visited_pred_mono t)
    · by_cases hnew : (!(ph :: visited).contains a) = true
      · rw [hnew, visited_pred_mono a hnew]
        simp only [if_true]
        exact Nat.succ_lt_succ (ih hmem2)
      · have hnew2 : (!(ph :: visited).contains a) = false := by
          cases h : (!(ph :: visited).contains a)
          · rfl
          · exact absurd h hnew
        rw [hnew2]
        simp only [Bool.false_eq_true, if_false]
        by_cases hold : (!visited.contains a) = true
        · rw [hold]
          simp only [if_true]
          exact Nat.lt_succ_of_le (Nat.le_of_lt (ih hmem2))
        · have hold2 : (!visited.contains a) = false := by
            cases h : (!visited.contains a)
            · rfl
            · exact absurd h hold
          rw [hold2]
          simp only [Bool.false_eq_true, if_false]
          exact ih hmem2

theorem optFold_isSome {f : List (Str × Nat) → Str → Option (Nat × List (Str × Nat))}
    (hf : ∀ memo n, (f memo n).isSome = true) :
    ∀ (ns : List Str) (init : Option (Nat × List (Str × Nat))),
      init.isSome = true →
      (ns.foldl (fun acc n =>
        match acc with
        | none => none
        | some (maxd, memo2) =>
          match f memo2 n with
          | none => none
          | some (d, memo3) => some (max maxd d, memo3)) init).isSome = true := by
  intro ns
  induction ns with
  | nil =>
    intro init h
    simpa using h
  | cons n t ih =>
    intro init h
    rw [List.foldl_cons]
    apply ih
    cases init with
    | none => simp at h
    | some v =>
      obtain ⟨maxd, memo2⟩ := v
      cases hf2 : f memo2 n with
      | none =>
        have hsome := hf memo2 n
        rw [hf2] at hsome
        simp at hsome
      | some w =>
        obtain ⟨d, memo3⟩ := w
        simp [hf2]

theorem calcDepth_isSome (phMap : List (Str × List Str)) :
    ∀ (fuel : Nat) (memo : List (Str × Nat)) (ph : Str) (visited : List Str),
      ((phMap.map (·.1)).filter (fun k => !visited.contains k)).length < fuel →
      (PageRenderer.calcDepth phMap fuel memo ph visited).isSome = true := by
  intro fuel
  induction fuel with
  | zero => intro memo ph visited h; omega
  | succ fuel ih =>
    intro memo ph visited hfuel
    simp only [PageRenderer.calcDepth]
    by_cases hv : visited.contains ph = true
    · rw [if_pos hv]
      simp
    · rw [if_neg hv]
      split
      · simp
      · split
        · simp
        · rename_i nested hp
          by_cases hne : nested.isEmpty = true
          · rw [if_pos hne]
            simp
          · rw [if_neg hne]
            have hv2 : visited.contains ph = false := by
              cases h : visited.contains ph
              · rfl
              · exact absurd h hv
            have hmem : ph ∈ phMap.map (·.1) := alGet_mem_keys hp
            have hlt : ((phMap.map (·.1)).filter
                (fun k => !(ph :: visited).contains k)).length < fuel := by
              have hstep := filter_visited_lt hmem hv2
              omega
            have hrec : ∀ (memo2 : List (Str × Nat)) (n : Str),
                (PageRenderer.calcDepth phMap fuel memo2 n (ph :: visited)).isSome = true := by
              intro memo2 n
              exact ih memo2 n (ph :: visited) hlt
            have hfold := optFold_isSome hrec nested (some (0, memo)) (by simp)
            rcases Option.isSome_iff_exists.mp hfold with ⟨w, hw⟩
            obtain ⟨maxd, memo4⟩ := w
            rw [hw]
            simp

theorem computeDepths_fold_isSome (phMap : List (Str × List Str)) (fuel : Nat)
    (hfuel : (phMap.map (·.1)).length < fuel) :
    ∀ (keys : List Str) (init : Option (List (Str × Nat))), init.isSome = true →
      (keys.foldl (fun acc ph =>
        match acc with
        | none => none
        | some memo =>
          if alHas memo ph then some memo
          else
            match PageRenderer.calcDepth phMap fuel memo ph [] with
            | none => none
            | some (_, memo2) => some memo2) init).isSome = true := by
  intro keys
  induction keys with
  | nil =>
    intro init h
    simpa using h
  | cons ph t ih =>
    intro init h
    rw [List.foldl_cons]
    apply ih
    cases init with
    | none => simp at h
    | some memo =>
      by_cases hh : alHas memo ph = true
      · simp [hh]
      · have hd := calcDepth_isSome phMap fuel memo ph [] (by
          have hle : ((phMap.map (·.1)).filter (fun k => !([] : List Str).contains k)).length ≤
              (phMap.map (·.1)).length := List.length_filter_le _ _
          omega)
        rcases Option.isSome_iff_exists.mp hd with ⟨w, hw⟩
        obtain ⟨d, memo2⟩ := w
        simp [hh, hw]

theorem computeDepths_isSome (phMap : List (Str × List Str)) (fuel : Nat)
    (hfuel : (phMap.map (·.1)).length < fuel) (keys : List Str) :
    (PageRenderer.computeDepths phMap fuel keys).isSome = true := by
  unfold PageRenderer.computeDepths
  exact computeDepths_fold_isSome phMap fuel hfuel keys (some []) rfl

theorem processNestedInCache_isSome (cache : List (Str × Str)) :
    (PageRenderer.processNestedInCache cache).isSome = true := by
  simp only [PageRenderer.processNestedInCache]
  have h := computeDepths_isSome (PageRenderer.buildPhMap cache)
    ((PageRenderer.buildPhMap cache).length + 1) (by simp) (cache.map (·.1))
  rcases Option.isSome_iff_exists.mp h with ⟨depths, hw⟩
  rw [hw]
  simp

/-- C8: `finalRender` terminates on every cache state and every input
string: the depth computation's visited set bounds its recursion and the
substitution passes are single bounded sweeps, so a defined output always
exists — including for a self-referential cache entry, as evaluated in the
second part. -/
theorem C8_finalRender_terminates :
    (∀ (cache : List (Str × Str)) (content : Str),
      ∃ out, PageRenderer.finalRender cache content = some out) ∧
    PageRenderer.finalRender [("_mdf_sc_0".data, "x _mdf_sc_0 y".data)] "_mdf_sc_0".data
      = some ("x x _mdf_sc_0 y y".data) := by
  constructor
  · intro cache content
    unfold PageRenderer.finalRender
    by_cases hc : cache.isEmpty = true
    · rw [if_pos hc]
      exact ⟨content, rfl⟩
    · rw [if_neg hc]
      rcases Option.isSome_iff_exists.mp (processNestedInCache_isSome cache) with ⟨flat, hw⟩
      rw [hw]
      exact ⟨_, rfl⟩
  · decide

theorem take_self_length {α : Type} (l : List α) (n : Nat) :
    l.take n = l.take ((l.take n).length) := by
  rw [List.length_take, take_min_length]

theorem isPrefixOf_take {α : Type} [BEq α] [LawfulBEq α] {p l : List α}
    (h : p.isPrefixOf l = true) : l.take p.length = p := by
  obtain ⟨t, rfl⟩ := List.isPrefixOf_iff_prefix.mp h
  exact List.take_left p t

theorem findSubIn_pre {pat : Str} : ∀ {s : Str} {d : Nat},
    findSubIn s pat = some d → pat.isPrefixOf (s.drop d) = true := by
  intro s
  induction s with
  | nil =>
    intro d h
    rw [findSubIn] at h
    by_cases hp : pat.isPrefixOf ([] : Str) = true
    · rw [if_pos hp] at h
      injection h with h2
      subst h2
      simpa using hp
    · rw [if_neg hp] at h
      cases h
  | cons c rest ih =>
    intro d h
    rw [findSubIn] at h
    by_cases hp : pat.isPrefixOf (c :: rest) = true
    · rw [if_pos hp] at h
      injection h with h2
      subst h2
      simpa using hp
    · rw [if_neg hp] at h
      cases hf : findSubIn rest pat with
      | none => rw [hf] at h; cases h
      | some d2 =>
        rw [hf] at h
        injection h with h2
        subst h2
        simpa using ih hf


theorem matchStartAt_consumed {s : Str} {m : PageLexer.StartMatch}
    (h : PageLexer.matchStartAt s = some m) : 3 ≤ m.consumed := by
  unfold PageLexer.matchStartAt at h
  split at h
  · split at h
    · cases h
    · injection h with h2
      subst h2
      dsimp only
      split <;> omega
  · cases h

theorem findStartGo_matchStart : ∀ {s : Str} {i0 i : Nat} {m : PageLexer.StartMatch},
    PageLexer.findStartGo s i0 = some (i, m) → ∃ t : Str, PageLexer.matchStartAt t = some m := by
  intro s
  induction s with
  | nil =>
    intro i0 i m h
    rw [PageLexer.findStartGo] at h
    cases h
  | cons c rest ih =>
    intro i0 i m h
    rw [PageLexer.findStartGo] at h
    cases hm : PageLexer.matchStartAt (c :: rest) with
    | some m2 =>
      rw [hm] at h
      injection h with h2
      injection h2 with h3 h4
      subst h4
      exact ⟨c :: rest, hm⟩
    | none =>
      rw [hm] at h
      exact ih h

theorem parseShortcode_original {input : Str} {r : PageLexer.ShortcodeParse}
    (h : PageLexer.parseShortcode input = some r) :
    r.original = input.take r.original.length ∧ 1 ≤ r.original.length := by
  unfold PageLexer.parseShortcode at h
  cases hf : PageLexer.findStartGo input 0 with
  | none => rw [hf] at h; cases h
  | some im =>
    obtain ⟨i, m⟩ := im
    rw [hf] at h
    dsimp only at h
    split at h
    · injection h with h2
      subst h2
      have hcons : 3 ≤ m.consumed := by
        obtain ⟨t, ht⟩ := findStartGo_matchStart hf
        exact matchStartAt_consumed ht
      have hne : 1 ≤ input.length := by
        cases hq : input with
        | nil =>
          subst hq
          rw [PageLexer.findStartGo] at hf
          cases hf
        | cons a t => simp
      constructor
      · exact take_self_length input _
      · simp only [List.length_take]
        omega
    · cases h

theorem concatVals_append (a b : List PageLexer.Item) :
    PageLexer.concatVals (a ++ b) = PageLexer.concatVals a ++ PageLexer.concatVals b := by
  simp [PageLexer.concatVals]

theorem concatVals_nil : PageLexer.concatVals [] = [] := rfl

theorem concatVals_cons (it : PageLexer.Item) (l : List PageLexer.Item) :
    PageLexer.concatVals (it :: l) = it.val ++ PageLexer.concatVals l := by
  simp [PageLexer.concatVals]

theorem pcws_concat (content : Str) (startPos : Nat) :
    ∀ (fuel cur : Nat), content.length ≤ cur + fuel →
      PageLexer.concatVals
          (PageLexer.parseContentWithShortcodes fuel content startPos cur)
        = content.drop cur := by
  intro fuel
  induction fuel with
  | zero =>
    intro cur h
    rw [PageLexer.parseContentWithShortcodes,
      List.drop_eq_nil_iff.mpr (by omega)]
    rfl
  | succ fuel ih =>
    intro cur h
    rw [PageLexer.parseContentWithShortcodes]
    by_cases hlt : cur < content.length
    · rw [if_pos hlt]
      cases hfind : findSubIn (content.drop cur) PageLexer.openDelim with
      | none =>
        simp [PageLexer.concatVals, PageLexer.contentItem]
      | some d =>
        have hsplit : content.drop cur
            = (content.drop cur).take d ++ content.drop (cur + d) := by
          conv_lhs => rw [← List.take_append_drop d (content.drop cur)]
          rw [List.drop_drop]
        cases hparse : PageLexer.parseShortcode (content.drop (cur + d)) with
        | some r =>
          obtain ⟨ho, hol⟩ := parseShortcode_original hparse
          have hrec := ih (cur + d + r.original.length) (by omega)
          have hsc : content.drop (cur + d)
              = r.original ++ content.drop (cur + d + r.original.length) := by
            conv_lhs =>
              rw [← List.take_append_drop r.original.length (content.drop (cur + d))]
            rw [List.drop_drop, ← ho]
          simp only [hparse]
          by_cases hd : cur < cur + d
          · rw [if_pos hd]
            rw [concatVals_append, concatVals_append, concatVals_cons, concatVals_cons,
              concatVals_nil]
            dsimp only [PageLexer.contentItem, PageLexer.shortcodeItem]
            rw [hrec]
            conv_rhs => rw [hsplit, hsc]
            simp
          · rw [if_neg hd]
            have hd0 : d = 0 := by omega
            subst hd0
            simp only [Nat.add_zero] at hsc hrec ⊢
            rw [concatVals_append, concatVals_append, concatVals_nil, concatVals_cons,
              concatVals_nil]
            dsimp only [PageLexer.shortcodeItem]
            rw [hrec]
            conv_rhs => rw [hsc]
            simp
        | none =>
          have hpre := findSubIn_pre hfind
          rw [List.drop_drop] at hpre
          have hrec := ih (cur + d + 3) (by omega)
          have hsc : content.drop (cur + d)
              = PageLexer.openDelim ++ content.drop (cur + d + 3) := by
            conv_lhs =>
              rw [← List.take_append_drop 3 (content.drop (cur + d))]
            rw [List.drop_drop]
            have h3 : (content.drop (cur + d)).take 3 = PageLexer.openDelim := by
              have h4 := isPrefixOf_take hpre
              simpa using h4
            rw [h3]
          simp only [hparse]
          by_cases hd : cur < cur + d
          · rw [if_pos hd]
            rw [concatVals_append, concatVals_append, concatVals_cons, concatVals_cons,
              concatVals_nil]
            dsimp only [PageLexer.contentItem]
            rw [hrec]
            conv_rhs => rw [hsplit, hsc]
            simp
          · rw [if_neg hd]
            have hd0 : d = 0 := by omega
            subst hd0
            simp only [Nat.add_zero] at hsc hrec ⊢
            rw [concatVals_append, concatVals_append, concatVals_nil, concatVals_cons,
              concatVals_nil]
            dsimp only [PageLexer.contentItem]
            rw [hrec]
            conv_rhs => rw [hsc]
            simp
    · rw [if_neg hlt, List.drop_eq_nil_iff.mpr (by omega)]
      rfl

theorem processSummary_concat (content : Str) (startPos : Nat) :
    PageLexer.concatVals (PageLexer.processSummaryDividerAndContent content startPos)
      = content := by
  unfold PageLexer.processSummaryDividerAndContent
  cases hf : PageLexer.findDivGo content true 0 with
  | none =>
    have h := pcws_concat content startPos (content.length + 1) 0 (by omega)
    simpa using h
  | some dd =>
    obtain ⟨dp, dl⟩ := dd
    have h1 := pcws_concat (content.take dp) startPos ((content.take dp).length + 1) 0 (by omega)
    have h2 := pcws_concat (content.drop (dp + dl)) (startPos + dp + dl)
      ((content.drop (dp + dl)).length + 1) 0 (by omega)
    rw [concatVals_append, concatVals_append, concatVals_cons, concatVals_nil]
    dsimp only [PageLexer.dividerItem]
    rw [List.drop_zero] at h1 h2
    rw [h1, h2]
    conv_rhs => rw [← List.take_append_drop dp content]
    conv_rhs => rw [← List.take_append_drop dl (content.drop dp)]
    rw [List.drop_drop]
    simp

theorem splitNl_ne_nil : ∀ s : Str, splitNl s ≠ [] := by
  intro s
  cases s with
  | nil => simp [splitNl]
  | cons c rest =>
    by_cases hc : c = '\n'
    · subst hc
      simp [splitNl]
    · cases hsp : splitNl rest with
      | nil => simp [splitNl, hc, hsp]
      | cons l ls => simp [splitNl, hc, hsp]

theorem joinNl_splitNl : ∀ s : Str, joinNl (splitNl s) = s := by
  intro s
  induction s with
  | nil => rfl
  | cons c rest ih =>
    by_cases hc : c = '\n'
    · subst hc
      cases hsp : splitNl rest with
      | nil => exact absurd hsp (splitNl_ne_nil rest)
      | cons l ls =>
        rw [hsp] at ih
        simp only [splitNl, hsp, joinNl]
        cases ls with
        | nil => simpa using ih
        | cons y ys => simpa using ih
    · cases hsp : splitNl rest with
      | nil => exact absurd hsp (splitNl_ne_nil rest)
      | cons l ls =>
        rw [hsp] at ih
        simp only [splitNl, hc, hsp]
        cases ls with
        | nil =>
          simp only [joinNl] at ih ⊢
          rw [ih]
        | cons y ys =>
          simp only [joinNl] at ih ⊢
          rw [← ih]
          simp

theorem joinNl_append : ∀ (l1 l2 : List Str), l1 ≠ [] → l2 ≠ [] →
    joinNl (l1 ++ l2) = joinNl l1 ++ '\n' :: joinNl l2 := by
  intro l1
  induction l1 with
  | nil => intro l2 h1 _; cases h1 rfl
  | cons a t ih =>
    intro l2 _ h2
    cases t with
    | nil =>
      cases l2 with
      | nil => cases h2 rfl
      | cons b u => simp [joinNl]
    | cons b u =>
      have htail : (b :: u : List Str) ≠ [] := by simp
      have hrec := ih l2 htail h2
      simp only [List.cons_append, List.append_eq, joinNl] at hrec ⊢
      rw [hrec]
      simp

theorem extractFrontmatter_split (c : Str)
    (h : (PageLexer.extractFrontmatter c).hasFm = true) :
    ((PageLexer.extractFrontmatter c).remaining = []
        ∧ (PageLexer.extractFrontmatter c).fmContent = c) ∨
      c = (PageLexer.extractFrontmatter c).fmContent
        ++ '\n' :: (PageLexer.extractFrontmatter c).remaining := by
  revert h
  unfold PageLexer.extractFrontmatter
  split
  · intro h; cases h
  · split
    · intro h; cases h
    · intro htrue
      rename_i e he
      dsimp only
      by_cases hd : (splitNl c).drop (e + 1) = []
      · left
        refine ⟨by rw [hd]; rfl, ?_⟩
        rw [List.take_of_length_le (List.drop_eq_nil_iff.mp hd)]
        exact joinNl_splitNl c
      · right
        have htake : (splitNl c).take (e + 1) ≠ [] := by
          simp only [ne_eq, List.take_eq_nil_iff]
          push_neg
          exact ⟨by omega, splitNl_ne_nil c⟩
        conv_lhs => rw [← joinNl_splitNl c, ← List.take_append_drop (e + 1) (splitNl c)]
        exact joinNl_append _ _ htake hd

/-- C3: concatenating the raw values of all items produced by
`PageLexer.parse` in emission order reproduces the input text exactly — up
to the single deterministic newline that frontmatter extraction consumes
between the closing fence line and the remaining text; for inputs without a
detected frontmatter block (in particular inputs with no recognised tags at
all) the reconstruction is exact. -/
theorem C3_tokenization_lossless (c : Str) :
    PageLexer.concatVals (PageLexer.parse c).items = c ∨
    ((PageLexer.parse c).hasFrontmatter = true ∧
      ∃ fm rest, c = fm ++ '\n' :: rest ∧
        PageLexer.concatVals (PageLexer.parse c).items = fm ++ rest) := by
  by_cases hfm : (PageLexer.extractFrontmatter c).hasFm = true
  · have hitems : (PageLexer.parse c).items
        = ⟨PageLexer.ItemKind.frontmatter, 0, (PageLexer.extractFrontmatter c).fmContent,
            [], [], false, false⟩
          :: PageLexer.processSummaryDividerAndContent
              (PageLexer.extractFrontmatter c).remaining
              ((PageLexer.extractFrontmatter c).fmContent.length + 1) := by
      simp only [PageLexer.parse, hfm, if_true]
    have hhf : (PageLexer.parse c).hasFrontmatter = true := by
      simp only [PageLexer.parse, hfm, if_true]
    have hcat : PageLexer.concatVals (PageLexer.parse c).items
        = (PageLexer.extractFrontmatter c).fmContent
          ++ (PageLexer.extractFrontmatter c).remaining := by
      rw [hitems, concatVals_cons, processSummary_concat]
    rcases extractFrontmatter_split c hfm with ⟨hrem, hcont⟩ | heq
    · left
      rw [hcat, hrem, hcont]
      simp
    · right
      exact ⟨hhf, _, _, heq, hcat⟩
  · left
    have hitems : (PageLexer.parse c).items
        = PageLexer.processSummaryDividerAndContent c 0 := by
      simp only [PageLexer.parse, hfm, Bool.false_eq_true, if_false]
    rw [hitems, processSummary_concat]
